import Mathlib

/-!
Verification of the IceFireDB SQL-proxy design specification against the
repository sources.

Part I embeds the Go code that is present in the repository:
the bearer-token expiry check (`Token.Expired`) and the AWS credentials
cache (`Credentials.singleRetrieve`, `Expire`, `IsExpired`,
`isExpiredLocked`).  Time values are modelled as integers (wall-clock
nanoseconds); Go's `time.Time.Round(0)` only strips the monotonic-clock
reading and is the identity on the wall-clock value, so it disappears in
this embedding.

Part II models the proxy core (connection pool, statement router,
topology handling) from the specification, since only its configuration
file is present in the repository sources.
-/

namespace Bearer

/-- Embedding of `bearer.Token`: a bearer token value with expiry
metadata.  `expires` is the wall-clock instant `Expires`. -/
structure Token where
  value : String
  canExpire : Bool
  expires : Int
deriving Repr, DecidableEq

/-- Embedding of `Token.Expired(now)`: returns false whenever
`CanExpire` is false; otherwise true iff `now` equals or is after
`Expires` (`now.Equal(t.Expires) || now.After(t.Expires)`). -/
def Token.Expired (t : Token) (now : Int) : Bool :=
  if !t.canExpire then
    false
  else
    (now == t.expires) || (t.expires < now)

end Bearer

namespace Credentials

/-- Embedding of `credentials.Value`: the four credential fields. -/
structure Value where
  accessKeyID : String
  secretAccessKey : String
  sessionToken : String
  providerName : String
deriving Repr, DecidableEq

/-- The zero `Value{}` literal. -/
def Value.zero : Value := ⟨"", "", "", ""⟩

/-- Abstract retrieval error (the Go `error` interface, non-nil case). -/
structure RetrieveError where
  msg : String
deriving Repr, DecidableEq

/-- Model of the `Provider` behaviour observed during one
`singleRetrieve` call: what `Retrieve`/`RetrieveWithContext` returns
(a `Value` together with an optional error, as in Go), and what
`IsExpired()` reports. -/
structure ProviderModel where
  retrieve : Value × Option RetrieveError
  isExpired : Bool

/-- The mutable state of a `Credentials` object that the claims are
about: the cached `c.creds` value. -/
structure CredState where
  creds : Value
deriving Repr, DecidableEq

/-- Embedding of `Credentials.isExpiredLocked(creds)`:
`creds.(Value) == Value{} || c.provider.IsExpired()`.  (The `creds ==
nil` disjunct of the Go code cannot fire here: every call site passes
the concrete `Value` field `c.creds`.) -/
def isExpiredLocked (p : ProviderModel) (creds : Value) : Bool :=
  (creds == Value.zero) || p.isExpired

/-- Embedding of `Credentials.singleRetrieve`: returns the cached value
when it is not expired; otherwise calls the provider and overwrites the
cache only when the returned error is nil.  The result pairs the Go
return value `(creds, err)` with the post-state. -/
def singleRetrieve (p : ProviderModel) (c : CredState) :
    (Value × Option RetrieveError) × CredState :=
  if !(isExpiredLocked p c.creds) then
    ((c.creds, none), c)
  else
    match p.retrieve with
    | (creds, none) => ((creds, none), { c with creds := creds })
    | (creds, some e) => ((creds, some e), c)

/-- Embedding of `Credentials.Expire()`: sets the cached value to the
zero `Value{}`. -/
def Expire (c : CredState) : CredState :=
  { c with creds := Value.zero }

/-- Embedding of `Credentials.IsExpired()`:
`c.isExpiredLocked(c.creds)`. -/
def IsExpired (p : ProviderModel) (c : CredState) : Bool :=
  isExpiredLocked p c.creds

end Credentials

/-- C8: for every bearer token and every time `now`: with `CanExpire =
false`, `Expired now` is false regardless of `now` and `Expires`; with
`CanExpire = true`, `Expired now` is true exactly when `now` equals or
is after `Expires`. -/
theorem C8_token_expired (t : Bearer.Token) (now : Int) :
    (t.canExpire = false → t.Expired now = false) ∧
    (t.canExpire = true →
      (t.Expired now = true ↔ (now = t.expires ∨ t.expires < now))) := by
  constructor
  · intro h
    simp [Bearer.Token.Expired, h]
  · intro h
    simp [Bearer.Token.Expired, h]

/-- C8 witness: evaluated on a token that can expire, at its exact
expiry instant. -/
theorem C8_token_expired_witness :
    ({ value := "tok", canExpire := true, expires := 5 } :
      Bearer.Token).canExpire = true ∧
    (({ value := "tok", canExpire := true, expires := 5 } :
      Bearer.Token).Expired 5 = true ↔
      ((5 : Int) = 5 ∨ (5 : Int) < 5)) :=
  ⟨rfl, (C8_token_expired { value := "tok", canExpire := true, expires := 5 } 5).2 rfl⟩

/-- C9: `singleRetrieve` is atomic on error: when the cached
credentials are expired and the provider's retrieve returns a non-nil
error, the cached `c.creds` is left unchanged (the whole state is
unchanged); the cache is overwritten only on success. -/
theorem C9_single_retrieve_atomic (p : Credentials.ProviderModel)
    (c : Credentials.CredState) (e : Credentials.RetrieveError)
    (hexp : Credentials.isExpiredLocked p c.creds = true)
    (herr : p.retrieve.2 = some e) :
    (Credentials.singleRetrieve p c).2 = c := by
  have h1 : p.retrieve = (p.retrieve.1, some e) := by
    rw [← herr]
  unfold Credentials.singleRetrieve
  rw [hexp, h1]
  simp

/-- C9 witness: a provider whose retrieve fails, with an expired (zero)
cache: the cache is untouched. -/
theorem C9_single_retrieve_atomic_witness :
    Credentials.isExpiredLocked
      ⟨(Credentials.Value.zero, some ⟨"boom"⟩), false⟩
      (Credentials.CredState.mk Credentials.Value.zero).creds = true ∧
    (⟨(Credentials.Value.zero, some ⟨"boom"⟩), false⟩ :
        Credentials.ProviderModel).retrieve.2 = some ⟨"boom"⟩ ∧
    (Credentials.singleRetrieve
      ⟨(Credentials.Value.zero, some ⟨"boom"⟩), false⟩
      (Credentials.CredState.mk Credentials.Value.zero)).2 =
      Credentials.CredState.mk Credentials.Value.zero :=
  ⟨by decide, rfl,
    C9_single_retrieve_atomic
      ⟨(Credentials.Value.zero, some ⟨"boom"⟩), false⟩
      (Credentials.CredState.mk Credentials.Value.zero)
      ⟨"boom"⟩ (by decide) rfl⟩

/-- C10: after `Expire()`, `IsExpired()` returns true for every
provider behaviour (in particular even when the provider's own
`IsExpired()` reports false), because `Expire` stores the zero `Value`
and `isExpiredLocked` treats the zero `Value` as expired. -/
theorem C10_expire_forces_is_expired (p : Credentials.ProviderModel)
    (c : Credentials.CredState) :
    Credentials.IsExpired p (Credentials.Expire c) = true := by
  simp [Credentials.IsExpired, Credentials.Expire, Credentials.isExpiredLocked]

namespace Proxy

/-- Modelled from the spec: the two backend tiers (admin = read-write,
readonly = replica); the proxy core itself is not among the repository
sources, only its configuration file is. -/
inductive Tier where
  | admin
  | readonly
deriving Repr, DecidableEq

/-- Modelled from the spec: the closed tagged variant of
routing-relevant statement classes produced by the classifier. -/
inductive StmtClass where
  | ReadOnly
  | ReadWrite
  | TransactionStart
  | TransactionEnd
deriving Repr, DecidableEq

/-- Modelled from the spec: per-session routing affinity
(none / pinned-admin). -/
inductive Affinity where
  | Unpinned
  | PinnedAdmin
deriving Repr, DecidableEq

/-- Modelled from the spec: the routing decision of section 4.3.  Given
the session's current affinity and a statement class, return the target
tier and the updated affinity.  A PinnedAdmin session always routes to
admin and unpins exactly on TransactionEnd; an Unpinned session routes
TransactionStart and ReadWrite to admin (pinning on TransactionStart)
and everything else to the readonly tier. -/
def Route (aff : Affinity) (cl : StmtClass) : Tier × Affinity :=
  match aff with
  | .PinnedAdmin =>
    (.admin, match cl with
      | .TransactionEnd => .Unpinned
      | _ => .PinnedAdmin)
  | .Unpinned =>
    match cl with
    | .TransactionStart => (.admin, .PinnedAdmin)
    | .ReadWrite => (.admin, .Unpinned)
    | _ => (.readonly, .Unpinned)

/-- Modelled from the spec: running the router over a statement
sequence, threading the affinity; returns the tier each statement was
sent to. -/
def routeTrace (aff : Affinity) : List StmtClass → List Tier
  | [] => []
  | cl :: rest => (Route aff cl).1 :: routeTrace (Route aff cl).2 rest

/-- Modelled from the spec: the first whitespace-delimited keyword of a
statement text, upper-cased for case-insensitive matching. -/
def firstKeyword (text : String) : String :=
  String.mk ((text.toList.takeWhile (fun c => c ≠ ' ')).map Char.toUpper)

/-- Modelled from the spec: the statement keywords the syntactic
classifier recognizes as something other than the ReadWrite default. -/
def classifierKeywords : List String :=
  ["SELECT", "SHOW", "DESCRIBE", "EXPLAIN", "BEGIN", "START",
   "COMMIT", "ROLLBACK"]

/-- Modelled from the spec: syntactic classification by statement
keyword inspection; ambiguous or unrecognized statements default to
ReadWrite. -/
def Classify (text : String) : StmtClass :=
  let kw := firstKeyword text
  if kw ∈ (["SELECT", "SHOW", "DESCRIBE", "EXPLAIN"] : List String) then
    .ReadOnly
  else if kw ∈ (["BEGIN", "START"] : List String) then
    .TransactionStart
  else if kw ∈ (["COMMIT", "ROLLBACK"] : List String) then
    .TransactionEnd
  else
    .ReadWrite

/-- A PinnedAdmin session keeps routing every statement to admin until
the first TransactionEnd of the remaining sequence (inclusive). -/
theorem routeTrace_pinned_all_admin (stmts : List StmtClass) (i : Nat)
    (h1 : ∀ j < i, stmts[j]? ≠ some StmtClass.TransactionEnd)
    (h2 : i < stmts.length) :
    (routeTrace .PinnedAdmin stmts)[i]? = some Tier.admin := by
  induction stmts generalizing i with
  | nil => simp at h2
  | cons cl rest ih =>
    have hstep : (Route .PinnedAdmin cl).1 = Tier.admin := by
      cases cl <;> rfl
    cases i with
    | zero =>
      simp [routeTrace, hstep]
    | succ n =>
      have hcl : cl ≠ StmtClass.TransactionEnd := by
        have h0 := h1 0 (Nat.succ_pos n)
        simpa using h0
      have haff : (Route .PinnedAdmin cl).2 = Affinity.PinnedAdmin := by
        cases cl
        · rfl
        · rfl
        · rfl
        · exact absurd rfl hcl
      simp only [routeTrace, List.getElem?_cons_succ]
      rw [haff]
      apply ih
      · intro j hj
        have hjj := h1 (j + 1) (Nat.succ_lt_succ hj)
        simpa using hjj
      · simpa using h2

end Proxy

/-- C1: a PinnedAdmin session routes every statement class to admin and
unpins exactly on TransactionEnd; consequently, for any statement
sequence beginning with TransactionStart, every statement up to and
including the first TransactionEnd is routed to admin. -/
theorem C1_transaction_affinity (stmts : List Proxy.StmtClass) (i : Nat)
    (hpre : ∀ j < i,
      (Proxy.StmtClass.TransactionStart :: stmts)[j]? ≠
        some Proxy.StmtClass.TransactionEnd)
    (hi : i < (Proxy.StmtClass.TransactionStart :: stmts).length) :
    (∀ cl, (Proxy.Route .PinnedAdmin cl).1 = Proxy.Tier.admin ∧
      ((Proxy.Route .PinnedAdmin cl).2 = Proxy.Affinity.Unpinned ↔
        cl = Proxy.StmtClass.TransactionEnd)) ∧
    (Proxy.routeTrace .Unpinned
      (Proxy.StmtClass.TransactionStart :: stmts))[i]? =
      some Proxy.Tier.admin := by
  constructor
  · intro cl
    cases cl <;> simp [Proxy.Route]
  · have hhead : Proxy.routeTrace .Unpinned
        (Proxy.StmtClass.TransactionStart :: stmts) =
        Proxy.Tier.admin :: Proxy.routeTrace .PinnedAdmin stmts := rfl
    rw [hhead]
    cases i with
    | zero => simp
    | succ n =>
      simp only [List.getElem?_cons_succ]
      apply Proxy.routeTrace_pinned_all_admin
      · intro j hj
        have hjj := hpre (j + 1) (Nat.succ_lt_succ hj)
        simpa using hjj
      · simpa using hi

/-- C1 witness: the sequence BEGIN; SELECT; COMMIT, checked at the
COMMIT (index 2): all three statements go to admin. -/
theorem C1_transaction_affinity_witness :
    (∀ j < 2,
      (Proxy.StmtClass.TransactionStart ::
        [Proxy.StmtClass.ReadOnly, Proxy.StmtClass.TransactionEnd])[j]? ≠
        some Proxy.StmtClass.TransactionEnd) ∧
    2 < (Proxy.StmtClass.TransactionStart ::
        [Proxy.StmtClass.ReadOnly, Proxy.StmtClass.TransactionEnd]).length ∧
    (Proxy.routeTrace .Unpinned
      (Proxy.StmtClass.TransactionStart ::
        [Proxy.StmtClass.ReadOnly, Proxy.StmtClass.TransactionEnd]))[2]? =
      some Proxy.Tier.admin :=
  ⟨by decide, by decide,
    (C1_transaction_affinity
      [Proxy.StmtClass.ReadOnly, Proxy.StmtClass.TransactionEnd] 2
      (by decide) (by decide)).2⟩

/-- C6: a statement whose leading keyword is not one of the recognized
classifier keywords classifies as ReadWrite, and an Unpinned session
issuing it is routed to the admin tier. -/
theorem C6_unrecognized_defaults_readwrite (text : String)
    (h : Proxy.firstKeyword text ∉ Proxy.classifierKeywords) :
    Proxy.Classify text = Proxy.StmtClass.ReadWrite ∧
    (Proxy.Route .Unpinned (Proxy.Classify text)).1 = Proxy.Tier.admin := by
  have hcl : Proxy.Classify text = Proxy.StmtClass.ReadWrite := by
    unfold Proxy.Classify
    simp only [Proxy.classifierKeywords, List.mem_cons, List.not_mem_nil,
      or_false, not_or] at h
    obtain ⟨h1, h2, h3, h4, h5, h6, h7, h8⟩ := h
    simp [h1, h2, h3, h4, h5, h6, h7, h8]
  refine ⟨hcl, ?_⟩
  rw [hcl]
  rfl

/-- C6 witness: a vendor-specific command is unrecognized, classifies
as ReadWrite and routes to admin. -/
theorem C6_unrecognized_defaults_readwrite_witness :
    Proxy.firstKeyword "XYZZY quux" ∉ Proxy.classifierKeywords ∧
    Proxy.Classify "XYZZY quux" = Proxy.StmtClass.ReadWrite ∧
    (Proxy.Route .Unpinned (Proxy.Classify "XYZZY quux")).1 =
      Proxy.Tier.admin :=
  ⟨by decide,
    (C6_unrecognized_defaults_readwrite "XYZZY quux" (by decide)).1,
    (C6_unrecognized_defaults_readwrite "XYZZY quux" (by decide)).2⟩

namespace Proxy

/-- Modelled from the spec: endpoint lifecycle states. -/
inductive EpState where
  | Active
  | Draining
  | Removed
deriving Repr, DecidableEq

/-- Modelled from the spec: pooled-connection states. -/
inductive ConnState where
  | Idle
  | InUse
  | Unhealthy
  | Closed
deriving Repr, DecidableEq

/-- Modelled from the spec: a pooled connection record, bound to the
address of its owning endpoint. -/
structure ConnInfo where
  ep : String
  state : ConnState
deriving Repr, DecidableEq

/-- Modelled from the spec: the configured per-tier pool bounds. -/
structure PoolConfig where
  minAlive : Nat
  maxAlive : Nat
  maxIdle : Nat
deriving Repr, DecidableEq

/-- Modelled from the spec: the state of one tier's pool: a fresh-id
counter, the connection arena (ids below `nextId` may be populated),
and the endpoint registry entries for the tier. -/
structure PoolState where
  nextId : Nat
  conn : Nat → Option ConnInfo
  eps : List (String × EpState)

/-- Registry lookup by endpoint address. -/
def lookupEp (eps : List (String × EpState)) (a : String) :
    Option EpState :=
  match eps.find? (fun p => p.1 == a) with
  | some p => some p.2
  | none => none

/-- Count of connections (by id) satisfying a predicate. -/
def countConns (s : PoolState) (p : Option ConnInfo → Bool) : Nat :=
  (List.range s.nextId).countP (fun i => p (s.conn i))

/-- A connection record counts as alive when it is Idle or InUse. -/
def connAlive (oc : Option ConnInfo) : Bool :=
  match oc with
  | some ci => ci.state == ConnState.Idle || ci.state == ConnState.InUse
  | none => false

/-- A connection record counts as idle. -/
def connIdle (oc : Option ConnInfo) : Bool :=
  match oc with
  | some ci => ci.state == ConnState.Idle
  | none => false

/-- A connection record counts as in-use. -/
def connInUse (oc : Option ConnInfo) : Bool :=
  match oc with
  | some ci => ci.state == ConnState.InUse
  | none => false

/-- The pool's aggregate alive count. -/
def aliveCount (s : PoolState) : Nat := countConns s connAlive

/-- The pool's aggregate idle count. -/
def idleCount (s : PoolState) : Nat := countConns s connIdle

/-- The pool's aggregate in-use count. -/
def inUseCount (s : PoolState) : Nat := countConns s connInUse

/-- Number of alive connections referencing endpoint `a`. -/
def refCount (s : PoolState) (a : String) : Nat :=
  countConns s (fun oc =>
    match oc with
    | some ci => ci.ep == a && connAlive oc
    | none => false)

/-- Overwrite connection `i`. -/
def setConn (s : PoolState) (i : Nat) (ci : ConnInfo) : PoolState :=
  { s with conn := Function.update s.conn i (some ci) }

/-- Create a fresh connection with the next id. -/
def addConn (s : PoolState) (a : String) (st : ConnState) : PoolState :=
  { nextId := s.nextId + 1
    conn := Function.update s.conn s.nextId (some ⟨a, st⟩)
    eps := s.eps }

/-- Set the registry state of endpoint `a`. -/
def setEp (eps : List (String × EpState)) (a : String) (st : EpState) :
    List (String × EpState) :=
  eps.map (fun p => if p.1 = a then (a, st) else p)

/-- Modelled from the spec: Drain marks an endpoint Draining; a Removed
entry is left untouched. -/
def drainEps (eps : List (String × EpState)) (a : String) :
    List (String × EpState) :=
  eps.map (fun p =>
    if p.1 = a ∧ p.2 ≠ EpState.Removed then (a, EpState.Draining) else p)

/-- Modelled from the spec: after a Return closes a connection, a
Draining endpoint with no remaining referencing connection transitions
to Removed. -/
def retireEp (s : PoolState) (a : String) : PoolState :=
  if lookupEp s.eps a = some EpState.Draining ∧ refCount s a = 0 then
    { s with eps := setEp s.eps a EpState.Removed }
  else
    s

/-- Modelled from the spec: the pool as created at startup: endpoints
from configuration, no connections. -/
def initPool (eps0 : List (String × EpState)) : PoolState :=
  { nextId := 0, conn := fun _ => none, eps := eps0 }

/-- Labels of the pool operations, recording which connection id or
endpoint an operation touched. -/
inductive Label where
  | borrow (i : Nat)
  | borrowNew (i : Nat)
  | ret (i : Nat) (healthy : Bool)
  | warm (a : String)
  | shrink (i : Nat)
  | drain (a : String)
deriving Repr, DecidableEq

/-- Modelled from the spec: one pool operation under the tier's
critical section.  Borrow hands out an Idle connection bound to an
Active endpoint, or creates one while `alive < maxAlive`; Return idles
a healthy connection whose endpoint is Active and closes it otherwise
(retiring a drained endpoint on its last return); Warm adds Idle
connections up to `minAlive`; Shrink closes Idle connections beyond
`maxIdle` but never below `minAlive` alive; Drain marks an endpoint
Draining. -/
inductive Step (cfg : PoolConfig) : PoolState → Label → PoolState → Prop where
  | borrowIdle {s : PoolState} {i : Nat} {ci : ConnInfo} :
      s.conn i = some ci → ci.state = ConnState.Idle →
      lookupEp s.eps ci.ep = some EpState.Active →
      Step cfg s (.borrow i) (setConn s i ⟨ci.ep, ConnState.InUse⟩)
  | borrowNew {s : PoolState} {a : String} :
      aliveCount s < cfg.maxAlive →
      lookupEp s.eps a = some EpState.Active →
      Step cfg s (.borrowNew s.nextId) (addConn s a ConnState.InUse)
  | retOk {s : PoolState} {i : Nat} {ci : ConnInfo} :
      s.conn i = some ci → ci.state = ConnState.InUse →
      lookupEp s.eps ci.ep = some EpState.Active →
      Step cfg s (.ret i true) (setConn s i ⟨ci.ep, ConnState.Idle⟩)
  | retClose {s : PoolState} {i : Nat} {ci : ConnInfo} {healthy : Bool} :
      s.conn i = some ci → ci.state = ConnState.InUse →
      (healthy = false ∨ lookupEp s.eps ci.ep ≠ some EpState.Active) →
      Step cfg s (.ret i healthy)
        (retireEp (setConn s i ⟨ci.ep, ConnState.Closed⟩) ci.ep)
  | warm {s : PoolState} {a : String} :
      lookupEp s.eps a = some EpState.Active →
      aliveCount s < cfg.minAlive → aliveCount s < cfg.maxAlive →
      Step cfg s (.warm a) (addConn s a ConnState.Idle)
  | shrink {s : PoolState} {i : Nat} {ci : ConnInfo} :
      s.conn i = some ci → ci.state = ConnState.Idle →
      cfg.maxIdle < idleCount s → cfg.minAlive < aliveCount s →
      Step cfg s (.shrink i) (setConn s i ⟨ci.ep, ConnState.Closed⟩)
  | drain {s : PoolState} {a : String} :
      Step cfg s (.drain a) { s with eps := drainEps s.eps a }

/-- A labelled sequence of pool operations. -/
inductive Steps (cfg : PoolConfig) : PoolState → List Label → PoolState → Prop where
  | refl (s : PoolState) : Steps cfg s [] s
  | tail {s s' s'' : PoolState} {l : Label} {ls : List Label} :
      Step cfg s l s' → Steps cfg s' ls s'' → Steps cfg s (l :: ls) s''

end Proxy

namespace Proxy

/-- countP is unchanged when the predicate agrees on every element. -/
theorem countP_congr_eq {α : Type} {l : List α} {p q : α → Bool}
    (h : ∀ a ∈ l, p a = q a) : l.countP p = l.countP q := by
  induction l with
  | nil => rfl
  | cons a l ih =>
    have ha : p a = q a := h a (by simp)
    have ht : l.countP p = l.countP q := ih (fun b hb => h b (by simp [hb]))
    simp [List.countP_cons, ha, ht]

/-- countP of a disjunction of disjoint predicates splits as a sum. -/
theorem countP_or_disjoint {α : Type} {l : List α} {p q : α → Bool}
    (h : ∀ a ∈ l, ¬(p a = true ∧ q a = true)) :
    l.countP (fun a => p a || q a) = l.countP p + l.countP q := by
  induction l with
  | nil => rfl
  | cons a l ih =>
    have ht := ih (fun b hb => h b (by simp [hb]))
    have ha := h a (by simp)
    rw [List.countP_cons, List.countP_cons, List.countP_cons, ht]
    cases hp : p a <;> cases hq : q a
    · simp
    · simp
      omega
    · simp
      omega
    · rw [hp, hq] at ha
      exact absurd ⟨rfl, rfl⟩ ha

/-- Counting over a range after a point update of the function. -/
theorem countP_range_update {α : Type} (f : Nat → α) (n i : Nat)
    (hi : i < n) (v : α) (p : α → Bool) :
    (List.range n).countP (fun j => p (Function.update f i v j)) +
      (if p (f i) then 1 else 0) =
    (List.range n).countP (fun j => p (f j)) + (if p v then 1 else 0) := by
  induction n with
  | zero => omega
  | succ n ih =>
    rw [List.range_succ, List.countP_append, List.countP_append]
    rcases Nat.lt_succ_iff_lt_or_eq.mp hi with h | h
    · have hne : n ≠ i := Nat.ne_of_gt h
      have hupd : Function.update f i v n = f n := Function.update_noteq hne v f
      have := ih h
      simp only [List.countP_cons, List.countP_nil, hupd]
      omega
    · subst h
      have hcongr : (List.range i).countP (fun j => p (Function.update f i v j)) =
          (List.range i).countP (fun j => p (f j)) := by
        apply countP_congr_eq
        intro a ha
        have haa : a < i := List.mem_range.mp ha
        rw [Function.update_noteq (Nat.ne_of_lt haa) v f]
      have hsame : Function.update f i v i = v := Function.update_same i v f
      simp only [List.countP_cons, List.countP_nil, hcongr, hsame]
      omega

/-- Retiring an endpoint keeps the connection arena and counter. -/
theorem retireEp_nextId (s : PoolState) (a : String) :
    (retireEp s a).nextId = s.nextId := by
  unfold retireEp
  split <;> rfl

/-- Retiring an endpoint keeps the connection map. -/
theorem retireEp_conn (s : PoolState) (a : String) :
    (retireEp s a).conn = s.conn := by
  unfold retireEp
  split <;> rfl

/-- The connection arena is populated only below the fresh-id counter. -/
def domOk (s : PoolState) : Prop :=
  ∀ i, s.nextId ≤ i → s.conn i = none

theorem lt_nextId_of_some {s : PoolState} {i : Nat} {ci : ConnInfo}
    (hdom : domOk s) (h : s.conn i = some ci) : i < s.nextId := by
  rcases Nat.lt_or_ge i s.nextId with hlt | hge
  · exact hlt
  · rw [hdom i hge] at h
    exact absurd h (by simp)

/-- Count bookkeeping for a point update of an existing connection. -/
theorem countConns_setConn {s : PoolState} {i : Nat} {ci : ConnInfo}
    (p : Option ConnInfo → Bool) (hi : i < s.nextId)
    (hsome : s.conn i = some ci) (ci' : ConnInfo) :
    countConns (setConn s i ci') p + (if p (some ci) then 1 else 0) =
      countConns s p + (if p (some ci') then 1 else 0) := by
  have h := countP_range_update s.conn s.nextId i hi (some ci') p
  rw [hsome] at h
  exact h

/-- Count bookkeeping for creation of a fresh connection. -/
theorem countConns_addConn (s : PoolState) (a : String) (st : ConnState)
    (p : Option ConnInfo → Bool) :
    countConns (addConn s a st) p =
      countConns s p + (if p (some ⟨a, st⟩) then 1 else 0) := by
  have hc : countConns s p =
      (List.range s.nextId).countP (fun j => p (s.conn j)) := rfl
  show (List.range (s.nextId + 1)).countP
      (fun j => p (Function.update s.conn s.nextId (some ⟨a, st⟩) j)) = _
  rw [List.range_succ, List.countP_append, hc]
  have hcongr : (List.range s.nextId).countP
      (fun j => p (Function.update s.conn s.nextId (some ⟨a, st⟩) j)) =
      (List.range s.nextId).countP (fun j => p (s.conn j)) := by
    apply countP_congr_eq
    intro b hb
    have hbb : b < s.nextId := List.mem_range.mp hb
    rw [Function.update_noteq (Nat.ne_of_lt hbb) _ s.conn]
  simp only [List.countP_cons, List.countP_nil, hcongr,
    Function.update_same]
  omega

/-- Retiring an endpoint touches only the registry, not the counts. -/
theorem countConns_retireEp (s : PoolState) (a : String)
    (p : Option ConnInfo → Bool) :
    countConns (retireEp s a) p = countConns s p := by
  unfold retireEp
  split <;> rfl

/-- Every pool operation keeps the arena populated only below the
fresh-id counter. -/
theorem step_domOk {cfg : PoolConfig} {s s' : PoolState} {l : Label}
    (hstep : Step cfg s l s') (hdom : domOk s) : domOk s' := by
  cases hstep with
  | borrowIdle hsome hst hep =>
    intro j hj
    have hi := lt_nextId_of_some hdom hsome
    have hji : j ≠ _ := Nat.ne_of_gt (Nat.lt_of_lt_of_le hi hj)
    exact (Function.update_noteq hji _ s.conn).trans (hdom j hj)
  | borrowNew hlt hep =>
    intro j hj
    have hj' : s.nextId + 1 ≤ j := hj
    have hji : j ≠ s.nextId := by omega
    exact (Function.update_noteq hji _ s.conn).trans (hdom j (by omega))
  | retOk hsome hst hep =>
    intro j hj
    have hi := lt_nextId_of_some hdom hsome
    have hji : j ≠ _ := Nat.ne_of_gt (Nat.lt_of_lt_of_le hi hj)
    exact (Function.update_noteq hji _ s.conn).trans (hdom j hj)
  | retClose hsome hst hcond =>
    intro j hj
    have hi := lt_nextId_of_some hdom hsome
    rw [retireEp_nextId] at hj
    have hj' : s.nextId ≤ j := hj
    rw [retireEp_conn]
    have hji : j ≠ _ := Nat.ne_of_gt (Nat.lt_of_lt_of_le hi hj')
    exact (Function.update_noteq hji _ s.conn).trans (hdom j hj')
  | warm hep hmin hmax =>
    intro j hj
    have hj' : s.nextId + 1 ≤ j := hj
    have hji : j ≠ s.nextId := by omega
    exact (Function.update_noteq hji _ s.conn).trans (hdom j (by omega))
  | shrink hsome hst hidle halive =>
    intro j hj
    have hi := lt_nextId_of_some hdom hsome
    have hji : j ≠ _ := Nat.ne_of_gt (Nat.lt_of_lt_of_le hi hj)
    exact (Function.update_noteq hji _ s.conn).trans (hdom j hj)
  | drain =>
    intro j hj
    exact hdom j hj

end Proxy

namespace Proxy

/-- Every pool operation keeps the alive count within `maxAlive`. -/
theorem step_alive {cfg : PoolConfig} {s s' : PoolState} {l : Label}
    (hstep : Step cfg s l s') (hdom : domOk s)
    (hle : aliveCount s ≤ cfg.maxAlive) : aliveCount s' ≤ cfg.maxAlive := by
  have hle' : countConns s connAlive ≤ cfg.maxAlive := hle
  cases hstep with
  | borrowIdle hsome hst hep =>
    rename_i i ci
    have hi := lt_nextId_of_some hdom hsome
    have hc := countConns_setConn connAlive hi hsome ⟨ci.ep, ConnState.InUse⟩
    have h1 : connAlive (some ci) = true := by simp [connAlive, hst]
    have h2 : connAlive (some ⟨ci.ep, ConnState.InUse⟩) = true := by
      simp [connAlive]
    rw [h1, h2] at hc
    simp at hc
    show countConns (setConn s i ⟨ci.ep, ConnState.InUse⟩) connAlive ≤
      cfg.maxAlive
    omega
  | borrowNew hlt hep =>
    rename_i a
    have hc := countConns_addConn s a ConnState.InUse connAlive
    have h2 : connAlive (some ⟨a, ConnState.InUse⟩) = true := by
      simp [connAlive]
    rw [h2] at hc
    simp at hc
    have hlt' : countConns s connAlive < cfg.maxAlive := hlt
    show countConns (addConn s a ConnState.InUse) connAlive ≤ cfg.maxAlive
    omega
  | retOk hsome hst hep =>
    rename_i i ci
    have hi := lt_nextId_of_some hdom hsome
    have hc := countConns_setConn connAlive hi hsome ⟨ci.ep, ConnState.Idle⟩
    have h1 : connAlive (some ci) = true := by simp [connAlive, hst]
    have h2 : connAlive (some ⟨ci.ep, ConnState.Idle⟩) = true := by
      simp [connAlive]
    rw [h1, h2] at hc
    simp at hc
    show countConns (setConn s i ⟨ci.ep, ConnState.Idle⟩) connAlive ≤
      cfg.maxAlive
    omega
  | retClose hsome hst hcond =>
    rename_i i ci healthy
    have hi := lt_nextId_of_some hdom hsome
    have hc := countConns_setConn connAlive hi hsome ⟨ci.ep, ConnState.Closed⟩
    have h1 : connAlive (some ci) = true := by simp [connAlive, hst]
    have h3 : connAlive (some ⟨ci.ep, ConnState.Closed⟩) = false := by
      simp [connAlive]
    rw [h1, h3] at hc
    simp at hc
    show countConns
      (retireEp (setConn s i ⟨ci.ep, ConnState.Closed⟩) ci.ep) connAlive ≤
      cfg.maxAlive
    rw [countConns_retireEp]
    omega
  | warm hep hmin hmax =>
    rename_i a
    have hc := countConns_addConn s a ConnState.Idle connAlive
    have h2 : connAlive (some ⟨a, ConnState.Idle⟩) = true := by
      simp [connAlive]
    rw [h2] at hc
    simp at hc
    have hlt' : countConns s connAlive < cfg.maxAlive := hmax
    show countConns (addConn s a ConnState.Idle) connAlive ≤ cfg.maxAlive
    omega
  | shrink hsome hst hidle halive =>
    rename_i i ci
    have hi := lt_nextId_of_some hdom hsome
    have hc := countConns_setConn connAlive hi hsome ⟨ci.ep, ConnState.Closed⟩
    have h1 : connAlive (some ci) = true := by simp [connAlive, hst]
    have h3 : connAlive (some ⟨ci.ep, ConnState.Closed⟩) = false := by
      simp [connAlive]
    rw [h1, h3] at hc
    simp at hc
    show countConns (setConn s i ⟨ci.ep, ConnState.Closed⟩) connAlive ≤
      cfg.maxAlive
    omega
  | drain =>
    exact hle'

/-- The invariants of reachability: the arena stays dom-bounded and the
alive count stays within `maxAlive` along any operation sequence. -/
theorem steps_inv {cfg : PoolConfig} :
    ∀ {s0 : PoolState} {ls : List Label} {s : PoolState},
      Steps cfg s0 ls s → domOk s0 → aliveCount s0 ≤ cfg.maxAlive →
      domOk s ∧ aliveCount s ≤ cfg.maxAlive := by
  intro s0 ls s h
  induction h with
  | refl t =>
    intro hdom hle
    exact ⟨hdom, hle⟩
  | tail hstep hrest ih =>
    intro hdom hle
    exact ih (step_domOk hstep hdom) (step_alive hstep hdom hle)

/-- In every pool state the idle and in-use counts sum to the alive
count (the three predicates partition alive connections). -/
theorem idle_add_inUse (s : PoolState) :
    idleCount s + inUseCount s = aliveCount s := by
  have hdisj : ∀ i ∈ List.range s.nextId,
      ¬(connIdle (s.conn i) = true ∧ connInUse (s.conn i) = true) := by
    intro i _
    rintro ⟨h1, h2⟩
    cases hoc : s.conn i with
    | none =>
      rw [hoc] at h1
      exact absurd h1 (by simp [connIdle])
    | some ci =>
      rw [hoc] at h1 h2
      have e1 : ci.state = ConnState.Idle := by
        simpa [connIdle] using h1
      have e2 : ci.state = ConnState.InUse := by
        simpa [connInUse] using h2
      rw [e1] at e2
      exact ConnState.noConfusion e2
  have hsplit := countP_or_disjoint hdisj
  have hconn : ∀ oc : Option ConnInfo,
      (connIdle oc || connInUse oc) = connAlive oc := by
    intro oc
    cases oc with
    | none => rfl
    | some ci => rfl
  show countConns s connIdle + countConns s connInUse =
    countConns s connAlive
  unfold countConns
  rw [← hsplit]
  apply countP_congr_eq
  intro i _
  exact hconn (s.conn i)

end Proxy

/-- C2: in every pool state reachable by any interleaving of Borrow,
Return, Warm, Shrink and Drain operations from the startup pool, the
aggregate counts satisfy idle + inUse = alive and alive ≤ maxAlive. -/
theorem C2_pool_invariant (cfg : Proxy.PoolConfig)
    (eps0 : List (String × Proxy.EpState)) (ls : List Proxy.Label)
    (s : Proxy.PoolState)
    (h : Proxy.Steps cfg (Proxy.initPool eps0) ls s) :
    Proxy.idleCount s + Proxy.inUseCount s = Proxy.aliveCount s ∧
      Proxy.aliveCount s ≤ cfg.maxAlive := by
  have hdom0 : Proxy.domOk (Proxy.initPool eps0) := fun i _ => rfl
  have halive0 : Proxy.aliveCount (Proxy.initPool eps0) ≤ cfg.maxAlive := by
    have h0 : Proxy.aliveCount (Proxy.initPool eps0) = 0 := rfl
    omega
  exact ⟨Proxy.idle_add_inUse s, (Proxy.steps_inv h hdom0 halive0).2⟩

/-- C2 witness: a one-step run that creates a connection on a fresh
pool with maxAlive = 2; the counts satisfy the invariant. -/
theorem C2_pool_invariant_witness :
    Proxy.Steps ⟨1, 2, 1⟩ (Proxy.initPool [("a", Proxy.EpState.Active)])
      [Proxy.Label.borrowNew 0]
      (Proxy.addConn (Proxy.initPool [("a", Proxy.EpState.Active)]) "a"
        Proxy.ConnState.InUse) ∧
    (Proxy.idleCount (Proxy.addConn
        (Proxy.initPool [("a", Proxy.EpState.Active)]) "a"
        Proxy.ConnState.InUse) +
      Proxy.inUseCount (Proxy.addConn
        (Proxy.initPool [("a", Proxy.EpState.Active)]) "a"
        Proxy.ConnState.InUse) =
      Proxy.aliveCount (Proxy.addConn
        (Proxy.initPool [("a", Proxy.EpState.Active)]) "a"
        Proxy.ConnState.InUse) ∧
      Proxy.aliveCount (Proxy.addConn
        (Proxy.initPool [("a", Proxy.EpState.Active)]) "a"
        Proxy.ConnState.InUse) ≤ 2) := by
  have hstep : Proxy.Step (⟨1, 2, 1⟩ : Proxy.PoolConfig)
      (Proxy.initPool [("a", Proxy.EpState.Active)])
      (.borrowNew 0)
      (Proxy.addConn (Proxy.initPool [("a", Proxy.EpState.Active)]) "a"
        Proxy.ConnState.InUse) :=
    Proxy.Step.borrowNew (by decide) (by decide)
  have hsteps := Proxy.Steps.tail hstep
    (Proxy.Steps.refl (Proxy.addConn
      (Proxy.initPool [("a", Proxy.EpState.Active)]) "a"
      Proxy.ConnState.InUse))
  exact ⟨hsteps, C2_pool_invariant _ _ _ _ hsteps⟩

namespace Proxy

/-- Connection id `k` (if present) is Closed. -/
def connClosed (s : PoolState) (k : Nat) : Prop :=
  ∀ ci, s.conn k = some ci → ci.state = ConnState.Closed

/-- The invariant carried along a trace after a connection was closed:
the arena is dom-bounded, the id was already allocated, and it is
Closed. -/
def ClosedInv (k : Nat) (s : PoolState) : Prop :=
  domOk s ∧ k < s.nextId ∧ connClosed s k

/-- One pool operation preserves ClosedInv and can be neither a borrow
of the closed id nor a creation with that id. -/
theorem step_closedInv {cfg : PoolConfig} {s s' : PoolState} {l : Label}
    {k : Nat} (hstep : Step cfg s l s') (h : ClosedInv k s) :
    ClosedInv k s' ∧ l ≠ Label.borrow k ∧ l ≠ Label.borrowNew k := by
  obtain ⟨hdom, hk, hcl⟩ := h
  have hdom' := step_domOk hstep hdom
  cases hstep with
  | borrowIdle hsome hst hep =>
    rename_i i ci
    have hik : i ≠ k := by
      intro he
      subst he
      rw [hcl ci hsome] at hst
      exact ConnState.noConfusion hst
    refine ⟨⟨hdom', hk, ?_⟩, ?_, ?_⟩
    · intro cj hcj
      rw [show (setConn s i ⟨ci.ep, ConnState.InUse⟩).conn k = s.conn k from
        Function.update_noteq (fun he => hik he.symm) _ s.conn] at hcj
      exact hcl cj hcj
    · intro hcon
      injection hcon with he
      exact hik he
    · intro hcon
      exact Label.noConfusion hcon
  | borrowNew hlt hep =>
    refine ⟨⟨hdom', Nat.lt_succ_of_lt hk, ?_⟩, ?_, ?_⟩
    · intro cj hcj
      rw [show (addConn s _ ConnState.InUse).conn k = s.conn k from
        Function.update_noteq (Nat.ne_of_lt hk) _ s.conn] at hcj
      exact hcl cj hcj
    · intro hcon
      exact Label.noConfusion hcon
    · intro hcon
      injection hcon with he
      omega
  | retOk hsome hst hep =>
    rename_i i ci
    have hik : i ≠ k := by
      intro he
      subst he
      rw [hcl ci hsome] at hst
      exact ConnState.noConfusion hst
    refine ⟨⟨hdom', hk, ?_⟩, ?_, ?_⟩
    · intro cj hcj
      rw [show (setConn s i ⟨ci.ep, ConnState.Idle⟩).conn k = s.conn k from
        Function.update_noteq (fun he => hik he.symm) _ s.conn] at hcj
      exact hcl cj hcj
    · intro hcon
      exact Label.noConfusion hcon
    · intro hcon
      exact Label.noConfusion hcon
  | retClose hsome hst hcond =>
    rename_i i ci healthy
    refine ⟨⟨hdom', ?_, ?_⟩, ?_, ?_⟩
    · rw [retireEp_nextId]
      exact hk
    · intro cj hcj
      rw [retireEp_conn] at hcj
      by_cases hik : i = k
      · subst hik
        rw [show (setConn s i ⟨ci.ep, ConnState.Closed⟩).conn i =
            some ⟨ci.ep, ConnState.Closed⟩ from
          Function.update_same i _ s.conn] at hcj
        injection hcj with he
        rw [← he]
      · rw [show (setConn s i ⟨ci.ep, ConnState.Closed⟩).conn k = s.conn k from
          Function.update_noteq (fun he => hik he.symm) _ s.conn] at hcj
        exact hcl cj hcj
    · intro hcon
      exact Label.noConfusion hcon
    · intro hcon
      exact Label.noConfusion hcon
  | warm hep hmin hmax =>
    refine ⟨⟨hdom', Nat.lt_succ_of_lt hk, ?_⟩, ?_, ?_⟩
    · intro cj hcj
      rw [show (addConn s _ ConnState.Idle).conn k = s.conn k from
        Function.update_noteq (Nat.ne_of_lt hk) _ s.conn] at hcj
      exact hcl cj hcj
    · intro hcon
      exact Label.noConfusion hcon
    · intro hcon
      exact Label.noConfusion hcon
  | shrink hsome hst hidle halive =>
    rename_i i ci
    refine ⟨⟨hdom', hk, ?_⟩, ?_, ?_⟩
    · intro cj hcj
      by_cases hik : i = k
      · subst hik
        rw [show (setConn s i ⟨ci.ep, ConnState.Closed⟩).conn i =
            some ⟨ci.ep, ConnState.Closed⟩ from
          Function.update_same i _ s.conn] at hcj
        injection hcj with he
        rw [← he]
      · rw [show (setConn s i ⟨ci.ep, ConnState.Closed⟩).conn k = s.conn k from
          Function.update_noteq (fun he => hik he.symm) _ s.conn] at hcj
        exact hcl cj hcj
    · intro hcon
      exact Label.noConfusion hcon
    · intro hcon
      exact Label.noConfusion hcon
  | drain =>
    refine ⟨⟨hdom', hk, ?_⟩, ?_, ?_⟩
    · intro cj hcj
      exact hcl cj hcj
    · intro hcon
      exact Label.noConfusion hcon
    · intro hcon
      exact Label.noConfusion hcon

/-- ClosedInv persists along any operation sequence, and the sequence
never borrows or re-creates the closed id. -/
theorem steps_closedInv {cfg : PoolConfig} :
    ∀ {s : PoolState} {ls : List Label} {s' : PoolState} {k : Nat},
      Steps cfg s ls s' → ClosedInv k s →
      ClosedInv k s' ∧ Label.borrow k ∉ ls ∧ Label.borrowNew k ∉ ls := by
  intro s ls s' k h
  induction h with
  | refl t =>
    intro hinv
    exact ⟨hinv, by simp, by simp⟩
  | tail hstep hrest ih =>
    intro hinv
    obtain ⟨hinv', hne1, hne2⟩ := step_closedInv hstep hinv
    obtain ⟨hinv'', hni1, hni2⟩ := ih hinv'
    refine ⟨hinv'', ?_, ?_⟩
    · intro hmem
      rcases List.mem_cons.mp hmem with he | hm
      · exact hne1 he.symm
      · exact hni1 hm
    · intro hmem
      rcases List.mem_cons.mp hmem with he | hm
      · exact hne2 he.symm
      · exact hni2 hm

/-- An unhealthy return closes the connection and decrements alive. -/
theorem retFalse_closes {cfg : PoolConfig} {s s₁ : PoolState} {k : Nat}
    (hdom : domOk s) (hret : Step cfg s (.ret k false) s₁) :
    ClosedInv k s₁ ∧ aliveCount s₁ + 1 = aliveCount s := by
  have hdom₁ := step_domOk hret hdom
  cases hret with
  | retClose hsome hst hcond =>
    rename_i ci
    have hk := lt_nextId_of_some hdom hsome
    refine ⟨⟨hdom₁, ?_, ?_⟩, ?_⟩
    · rw [retireEp_nextId]
      exact hk
    · intro cj hcj
      rw [retireEp_conn] at hcj
      rw [show (setConn s k ⟨ci.ep, ConnState.Closed⟩).conn k =
          some ⟨ci.ep, ConnState.Closed⟩ from
        Function.update_same k _ s.conn] at hcj
      injection hcj with he
      rw [← he]
    · have hc := countConns_setConn connAlive hk hsome ⟨ci.ep, ConnState.Closed⟩
      have h1 : connAlive (some ci) = true := by simp [connAlive, hst]
      have h3 : connAlive (some ⟨ci.ep, ConnState.Closed⟩) = false := by
        simp [connAlive]
      rw [h1, h3] at hc
      simp at hc
      show countConns
        (retireEp (setConn s k ⟨ci.ep, ConnState.Closed⟩) ci.ep) connAlive + 1 =
        countConns s connAlive
      rw [countConns_retireEp]
      omega

end Proxy

/-- C3: a connection returned with healthy = false is closed (the alive
count is decremented), and no later Borrow (of an existing or freshly
created connection) in any subsequent state ever hands out that
connection id again: it stays Closed forever. -/
theorem C3_unhealthy_return_never_rehanded (cfg : Proxy.PoolConfig)
    (eps0 : List (String × Proxy.EpState)) (ls0 ls : List Proxy.Label)
    (s s₁ s₂ : Proxy.PoolState) (k : Nat)
    (hreach : Proxy.Steps cfg (Proxy.initPool eps0) ls0 s)
    (hret : Proxy.Step cfg s (.ret k false) s₁)
    (hlater : Proxy.Steps cfg s₁ ls s₂) :
    Proxy.aliveCount s₁ + 1 = Proxy.aliveCount s ∧
    Proxy.connClosed s₁ k ∧ Proxy.connClosed s₂ k ∧
    Proxy.Label.borrow k ∉ ls ∧ Proxy.Label.borrowNew k ∉ ls := by
  have halive0 : Proxy.aliveCount (Proxy.initPool eps0) ≤ cfg.maxAlive := by
    have h0 : Proxy.aliveCount (Proxy.initPool eps0) = 0 := rfl
    omega
  have hdom : Proxy.domOk s :=
    (Proxy.steps_inv hreach (fun i _ => rfl) halive0).1
  obtain ⟨hinv₁, hdec⟩ := Proxy.retFalse_closes hdom hret
  obtain ⟨hinv₂, hni1, hni2⟩ := Proxy.steps_closedInv hlater hinv₁
  exact ⟨hdec, hinv₁.2.2, hinv₂.2.2, hni1, hni2⟩

namespace Proxy

/-- Concrete pool bounds for the C3 run. -/
def w3cfg : PoolConfig := ⟨1, 2, 1⟩

/-- Concrete startup registry for the C3 run. -/
def w3eps : List (String × EpState) := [("a", EpState.Active)]

/-- State after creating connection 0 in use. -/
def w3s : PoolState := addConn (initPool w3eps) "a" ConnState.InUse

/-- State after returning connection 0 with healthy = false. -/
def w3s1 : PoolState := retireEp (setConn w3s 0 ⟨"a", ConnState.Closed⟩) "a"

/-- State after a later fresh borrow (gets id 1, not 0). -/
def w3s2 : PoolState := addConn w3s1 "a" ConnState.InUse

end Proxy

/-- C3 witness: connection 0 is created, returned unhealthy, and a
later borrow creates id 1; id 0 stays Closed and is never re-issued. -/
theorem C3_unhealthy_return_never_rehanded_witness :
    Proxy.Steps Proxy.w3cfg (Proxy.initPool Proxy.w3eps)
      [Proxy.Label.borrowNew 0] Proxy.w3s ∧
    Proxy.Step Proxy.w3cfg Proxy.w3s (Proxy.Label.ret 0 false) Proxy.w3s1 ∧
    Proxy.Steps Proxy.w3cfg Proxy.w3s1 [Proxy.Label.borrowNew 1] Proxy.w3s2 ∧
    (Proxy.aliveCount Proxy.w3s1 + 1 = Proxy.aliveCount Proxy.w3s ∧
     Proxy.connClosed Proxy.w3s1 0 ∧ Proxy.connClosed Proxy.w3s2 0 ∧
     Proxy.Label.borrow 0 ∉ [Proxy.Label.borrowNew 1] ∧
     Proxy.Label.borrowNew 0 ∉ [Proxy.Label.borrowNew 1]) := by
  have h0 : Proxy.Steps Proxy.w3cfg (Proxy.initPool Proxy.w3eps)
      [Proxy.Label.borrowNew 0] Proxy.w3s :=
    Proxy.Steps.tail (Proxy.Step.borrowNew (by decide) (by decide))
      (Proxy.Steps.refl _)
  have hsome : Proxy.w3s.conn 0 = some ⟨"a", Proxy.ConnState.InUse⟩ := by
    decide
  have h1 : Proxy.Step Proxy.w3cfg Proxy.w3s (Proxy.Label.ret 0 false)
      Proxy.w3s1 :=
    Proxy.Step.retClose hsome rfl (Or.inl rfl)
  have h2 : Proxy.Steps Proxy.w3cfg Proxy.w3s1 [Proxy.Label.borrowNew 1]
      Proxy.w3s2 :=
    Proxy.Steps.tail (Proxy.Step.borrowNew (by decide) (by decide))
      (Proxy.Steps.refl _)
  exact ⟨h0, h1, h2,
    C3_unhealthy_return_never_rehanded Proxy.w3cfg Proxy.w3eps
      [Proxy.Label.borrowNew 0] [Proxy.Label.borrowNew 1]
      Proxy.w3s Proxy.w3s1 Proxy.w3s2 0 h0 h1 h2⟩

namespace Proxy

/-- Modelled from the spec: the error taxonomy of section 7. -/
inductive PoolError where
  | PoolExhausted
  | BackendUnavailable
  | InvalidConfiguration
deriving Repr, DecidableEq

/-- Whether the pool has an Idle connection bound to an Active
endpoint. -/
def hasIdleActive (s : PoolState) : Bool :=
  (List.range s.nextId).any (fun i =>
    match s.conn i with
    | some ci =>
      ci.state == ConnState.Idle &&
        (lookupEp s.eps ci.ep == some EpState.Active)
    | none => false)

/-- Modelled from the spec: Borrow with a deadline, in discrete time.
At each tick it takes an Idle connection if one is available, creates
one while alive < maxAlive, fails with PoolExhausted once the deadline
has elapsed, succeeds if a connection is returned at this tick
(`sched`), and otherwise waits one tick.  The result carries the tick
at which Borrow finished. -/
def borrowWait (cfg : PoolConfig) (s : PoolState) (sched : Nat → Bool)
    (now deadline : Nat) : Option PoolError × Nat :=
  if hasIdleActive s then (none, now)
  else if aliveCount s < cfg.maxAlive then (none, now)
  else if h : deadline ≤ now then (some PoolError.PoolExhausted, now)
  else if sched now then (none, now)
  else borrowWait cfg s sched (now + 1) deadline
termination_by deadline - now
decreasing_by omega

end Proxy

/-- C4: on a pool with no Idle connection and alive at maxAlive, if no
connection is returned before the deadline, Borrow fails with
PoolExhausted exactly at deadline expiry: it neither succeeds nor runs
past the deadline. -/
theorem C4_borrow_deadline (cfg : Proxy.PoolConfig) (s : Proxy.PoolState)
    (sched : Nat → Bool) (now deadline : Nat)
    (hIdle : Proxy.hasIdleActive s = false)
    (hMax : cfg.maxAlive ≤ Proxy.aliveCount s)
    (hNoRet : ∀ t, t < deadline → sched t = false)
    (hnow : now ≤ deadline) :
    Proxy.borrowWait cfg s sched now deadline =
      (some Proxy.PoolError.PoolExhausted, deadline) := by
  have hgen : ∀ n m, m ≤ deadline → deadline - m = n →
      Proxy.borrowWait cfg s sched m deadline =
        (some Proxy.PoolError.PoolExhausted, deadline) := by
    intro n
    induction n with
    | zero =>
      intro m hle hdn
      have heq : m = deadline := by omega
      subst heq
      rw [Proxy.borrowWait]
      simp [hIdle, Nat.not_lt.mpr hMax]
    | succ n ih =>
      intro m hle hdn
      have hlt : m < deadline := by omega
      rw [Proxy.borrowWait]
      simp only [hIdle, Bool.false_eq_true, if_false,
        Nat.not_lt.mpr hMax, dif_neg (Nat.not_le.mpr hlt),
        hNoRet m hlt]
      exact ih (m + 1) (by omega) (by omega)
  exact hgen (deadline - now) now hnow rfl

namespace Proxy

/-- Pool bounds for the C4 run: maxAlive = 1. -/
def w4cfg : PoolConfig := ⟨1, 1, 1⟩

/-- An exhausted pool: one connection, in use. -/
def w4s : PoolState :=
  addConn (initPool [("a", EpState.Active)]) "a" ConnState.InUse

end Proxy

/-- C4 witness: the exhausted one-connection pool with no returns and
deadline 3: Borrow returns PoolExhausted at tick 3. -/
theorem C4_borrow_deadline_witness :
    Proxy.hasIdleActive Proxy.w4s = false ∧
    Proxy.w4cfg.maxAlive ≤ Proxy.aliveCount Proxy.w4s ∧
    (∀ t, t < 3 → (fun _ => false) t = false) ∧
    0 ≤ 3 ∧
    Proxy.borrowWait Proxy.w4cfg Proxy.w4s (fun _ => false) 0 3 =
      (some Proxy.PoolError.PoolExhausted, 3) :=
  ⟨by decide, by decide, fun t _ => rfl, by decide,
    C4_borrow_deadline Proxy.w4cfg Proxy.w4s (fun _ => false) 0 3
      (by decide) (by decide) (fun t _ => rfl) (by decide)⟩

namespace Proxy

/-- Number of registry entries for address `a`. -/
def countKey (eps : List (String × EpState)) (a : String) : Nat :=
  eps.countP (fun p => p.1 == a)

/-- Number of Active registry entries. -/
def activeCount (eps : List (String × EpState)) : Nat :=
  eps.countP (fun p => p.2 == EpState.Active)

/-- Modelled from the spec: ApplyTopology on EndpointAdded registers
the endpoint as Active; if an entry for the address exists already it
is set Active in place (a no-op when already Active). -/
def applyAdded (eps : List (String × EpState)) (a : String) :
    List (String × EpState) :=
  if eps.any (fun p => p.1 == a) then
    eps.map (fun p => if p.1 = a then (a, EpState.Active) else p)
  else
    eps ++ [(a, EpState.Active)]

/-- Modelled from the spec: ApplyTopology on EndpointRemoved drains the
endpoint, except that removing the last Active endpoint of the tier
keeps it Active (stale-but-available policy). -/
def applyRemoved (eps : List (String × EpState)) (a : String) :
    List (String × EpState) :=
  if lookupEp eps a = some EpState.Active ∧ activeCount eps ≤ 1 then
    eps
  else
    drainEps eps a

/-- Registry well-formedness: one entry per address. -/
def keysNodup (eps : List (String × EpState)) : Prop :=
  (eps.map Prod.fst).Nodup

instance keysNodupDec (eps : List (String × EpState)) :
    Decidable (keysNodup eps) :=
  inferInstanceAs (Decidable ((eps.map Prod.fst).Nodup))

/-- Mapping a pointwise-identity function leaves a list unchanged. -/
theorem map_eq_self_of {α : Type} {l : List α} {f : α → α}
    (h : ∀ x ∈ l, f x = x) : l.map f = l := by
  induction l with
  | nil => rfl
  | cons a l ih =>
    rw [List.map_cons, h a (by simp), ih (fun x hx => h x (by simp [hx]))]

/-- Mapping two pointwise-equal functions gives the same list. -/
theorem map_congr_fun {α β : Type} {l : List α} {f g : α → β}
    (h : ∀ x ∈ l, f x = g x) : l.map f = l.map g := by
  induction l with
  | nil => rfl
  | cons a l ih =>
    rw [List.map_cons, List.map_cons, h a (by simp),
      ih (fun x hx => h x (by simp [hx]))]

/-- With unique keys, the looked-up entry is the only entry with its
key. -/
theorem lookup_unique :
    ∀ (eps : List (String × EpState)) (a : String) (st : EpState),
      keysNodup eps → lookupEp eps a = some st →
      ∀ p ∈ eps, p.1 = a → p = (a, st) := by
  intro eps
  induction eps with
  | nil =>
    intro a st hnd hlk p hp
    exact absurd hp (List.not_mem_nil p)
  | cons q rest ih =>
    intro a st hnd hlk p hp hpa
    rw [keysNodup, List.map_cons, List.nodup_cons] at hnd
    obtain ⟨hq, hndr⟩ := hnd
    by_cases hqa : q.1 = a
    · have hfind : (q :: rest).find? (fun p => p.1 == a) = some q :=
        List.find?_cons_of_pos _ (by simp [hqa])
      have hst : st = q.2 := by
        unfold lookupEp at hlk
        rw [hfind] at hlk
        exact (Option.some.inj hlk).symm
      rcases List.mem_cons.mp hp with he | hm
      · subst he
        rw [hst, ← hqa]
      · exfalso
        apply hq
        rw [hqa, ← hpa]
        exact List.mem_map.mpr ⟨p, hm, rfl⟩
    · have hfind : (q :: rest).find? (fun p => p.1 == a) =
          rest.find? (fun p => p.1 == a) :=
        List.find?_cons_of_neg _ (by simp [hqa])
      have hlk' : lookupEp rest a = some st := by
        unfold lookupEp at hlk ⊢
        rw [hfind] at hlk
        exact hlk
      rcases List.mem_cons.mp hp with he | hm
      · subst he
        exact absurd hpa hqa
      · exact ih a st hndr hlk' p hm hpa

/-- With unique keys, membership determines the lookup result. -/
theorem lookup_of_mem :
    ∀ (eps : List (String × EpState)) (a : String) (st : EpState),
      keysNodup eps → (a, st) ∈ eps → lookupEp eps a = some st := by
  intro eps
  induction eps with
  | nil =>
    intro a st hnd hmem
    exact absurd hmem (List.not_mem_nil _)
  | cons q rest ih =>
    intro a st hnd hmem
    rw [keysNodup, List.map_cons, List.nodup_cons] at hnd
    obtain ⟨hq, hndr⟩ := hnd
    rcases List.mem_cons.mp hmem with he | hm
    · subst he
      unfold lookupEp
      rw [List.find?_cons_of_pos _ (by simp)]
    · have hqa : q.1 ≠ a := by
        intro he
        apply hq
        rw [he]
        exact List.mem_map.mpr ⟨(a, st), hm, rfl⟩
      unfold lookupEp
      rw [List.find?_cons_of_neg _ (by simp [hqa])]
      exact ih a st hndr hm

/-- With unique keys, an address that occurs occurs exactly once. -/
theorem countKey_eq_one :
    ∀ (eps : List (String × EpState)) (a : String),
      keysNodup eps → (∃ q ∈ eps, q.1 = a) → countKey eps a = 1 := by
  intro eps
  induction eps with
  | nil =>
    intro a hnd hmem
    obtain ⟨q, hq, _⟩ := hmem
    exact absurd hq (List.not_mem_nil q)
  | cons q rest ih =>
    intro a hnd hmem
    rw [keysNodup, List.map_cons, List.nodup_cons] at hnd
    obtain ⟨hq, hndr⟩ := hnd
    by_cases hqa : q.1 = a
    · have hzero : countKey rest a = 0 := by
        rw [countKey, List.countP_eq_zero]
        intro p hp
        simp only [beq_iff_eq]
        intro hpa
        apply hq
        rw [hqa, ← hpa]
        exact List.mem_map.mpr ⟨p, hp, rfl⟩
      rw [countKey, List.countP_cons]
      rw [countKey] at hzero
      simp [hqa, hzero]
    · obtain ⟨r, hr, hra⟩ := hmem
      rcases List.mem_cons.mp hr with he | hm
      · subst he
        exact absurd hra hqa
      · have hone := ih a hndr ⟨r, hm, hra⟩
        rw [countKey, List.countP_cons]
        rw [countKey] at hone
        simp [hqa, hone]

end Proxy

namespace Proxy

/-- Re-registering an endpoint keeps the registry keys unchanged. -/
theorem applyAdded_map_keys (eps : List (String × EpState)) (a : String) :
    (eps.map (fun p => if p.1 = a then (a, EpState.Active) else p)).map
      Prod.fst = eps.map Prod.fst := by
  rw [List.map_map]
  apply map_congr_fun
  intro p hp
  by_cases hpa : p.1 = a
  · simp [Function.comp, hpa]
  · simp [Function.comp, hpa]

/-- EndpointAdded for an already-Active endpoint is a no-op. -/
theorem applyAdded_of_active {eps : List (String × EpState)} {a : String}
    (hnd : keysNodup eps) (hlk : lookupEp eps a = some EpState.Active) :
    applyAdded eps a = eps := by
  have hfind : ∃ q, eps.find? (fun p => p.1 == a) = some q := by
    unfold lookupEp at hlk
    cases hf : eps.find? (fun p => p.1 == a) with
    | none =>
      rw [hf] at hlk
      exact absurd hlk (by simp)
    | some q => exact ⟨q, rfl⟩
  obtain ⟨q, hf⟩ := hfind
  have hqmem := List.mem_of_find?_eq_some hf
  have hqpred := List.find?_some hf
  have hany : eps.any (fun p => p.1 == a) = true :=
    List.any_eq_true.mpr ⟨q, hqmem, hqpred⟩
  unfold applyAdded
  rw [if_pos hany]
  apply map_eq_self_of
  intro p hp
  by_cases hpa : p.1 = a
  · rw [if_pos hpa, lookup_unique eps a EpState.Active hnd hlk p hp hpa]
  · rw [if_neg hpa]

/-- EndpointAdded leaves exactly one entry for the address, Active,
and keeps the registry keys unique. -/
theorem applyAdded_spec (eps : List (String × EpState)) (a : String)
    (hnd : keysNodup eps) :
    countKey (applyAdded eps a) a = 1 ∧
    lookupEp (applyAdded eps a) a = some EpState.Active ∧
    keysNodup (applyAdded eps a) := by
  by_cases hany : eps.any (fun p => p.1 == a) = true
  · unfold applyAdded
    rw [if_pos hany]
    have hnd' : keysNodup
        (eps.map (fun p => if p.1 = a then (a, EpState.Active) else p)) := by
      rw [keysNodup, applyAdded_map_keys]
      exact hnd
    obtain ⟨q, hqmem, hqpred⟩ := List.any_eq_true.mp hany
    have hqa : q.1 = a := by simpa using hqpred
    have hmem : (a, EpState.Active) ∈
        eps.map (fun p => if p.1 = a then (a, EpState.Active) else p) :=
      List.mem_map.mpr ⟨q, hqmem, by simp [hqa]⟩
    refine ⟨?_, lookup_of_mem _ a _ hnd' hmem, hnd'⟩
    exact countKey_eq_one _ a hnd' ⟨(a, EpState.Active), hmem, rfl⟩
  · unfold applyAdded
    rw [if_neg hany]
    have hnotmem : ∀ p ∈ eps, p.1 ≠ a := by
      intro p hp he
      apply hany
      exact List.any_eq_true.mpr ⟨p, hp, by simp [he]⟩
    have hnd' : keysNodup (eps ++ [(a, EpState.Active)]) := by
      rw [keysNodup, List.map_append]
      apply List.Nodup.append hnd (by simp)
      intro x hx hx2
      simp at hx2
      subst hx2
      obtain ⟨p, hp, hpa⟩ := List.mem_map.mp hx
      exact hnotmem p hp hpa
    have hmem : (a, EpState.Active) ∈ eps ++ [(a, EpState.Active)] := by
      simp
    refine ⟨?_, lookup_of_mem _ a _ hnd' hmem, hnd'⟩
    exact countKey_eq_one _ a hnd' ⟨(a, EpState.Active), hmem, rfl⟩

/-- EndpointRemoved for an already-Removed endpoint is a no-op. -/
theorem applyRemoved_of_removed {eps : List (String × EpState)} {a : String}
    (hnd : keysNodup eps) (hlk : lookupEp eps a = some EpState.Removed) :
    applyRemoved eps a = eps := by
  unfold applyRemoved
  rw [if_neg]
  · apply map_eq_self_of
    intro p hp
    rw [if_neg]
    rintro ⟨hpa, hpr⟩
    apply hpr
    rw [lookup_unique eps a EpState.Removed hnd hlk p hp hpa]
  · rintro ⟨h1, _⟩
    rw [hlk] at h1
    exact EpState.noConfusion (Option.some.inj h1)

end Proxy

/-- C5: ApplyTopology is idempotent on the registry: EndpointAdded for
an already-Active endpoint leaves the registry unchanged, applying the
same EndpointAdded twice leaves exactly one (Active) entry for that
address, and EndpointRemoved for an already-Removed endpoint leaves
the registry unchanged. -/
theorem C5_apply_topology_idempotent (eps : List (String × Proxy.EpState))
    (a : String) (hnd : Proxy.keysNodup eps) :
    (Proxy.lookupEp eps a = some Proxy.EpState.Active →
      Proxy.applyAdded eps a = eps) ∧
    (Proxy.countKey (Proxy.applyAdded (Proxy.applyAdded eps a) a) a = 1 ∧
      Proxy.lookupEp (Proxy.applyAdded (Proxy.applyAdded eps a) a) a =
        some Proxy.EpState.Active) ∧
    (Proxy.lookupEp eps a = some Proxy.EpState.Removed →
      Proxy.applyRemoved eps a = eps) := by
  obtain ⟨hc1, hl1, hn1⟩ := Proxy.applyAdded_spec eps a hnd
  refine ⟨fun hlk => Proxy.applyAdded_of_active hnd hlk, ?_,
    fun hlk => Proxy.applyRemoved_of_removed hnd hlk⟩
  rw [Proxy.applyAdded_of_active hn1 hl1]
  exact ⟨hc1, hl1⟩

/-- C5 witness: a two-entry registry; re-adding the Active endpoint
"x" twice keeps exactly one Active entry for it. -/
theorem C5_apply_topology_idempotent_witness :
    Proxy.keysNodup
      [("x", Proxy.EpState.Active), ("y", Proxy.EpState.Removed)] ∧
    ((Proxy.lookupEp
        [("x", Proxy.EpState.Active), ("y", Proxy.EpState.Removed)] "x" =
        some Proxy.EpState.Active →
      Proxy.applyAdded
        [("x", Proxy.EpState.Active), ("y", Proxy.EpState.Removed)] "x" =
        [("x", Proxy.EpState.Active), ("y", Proxy.EpState.Removed)]) ∧
    (Proxy.countKey (Proxy.applyAdded (Proxy.applyAdded
        [("x", Proxy.EpState.Active), ("y", Proxy.EpState.Removed)] "x")
        "x") "x" = 1 ∧
      Proxy.lookupEp (Proxy.applyAdded (Proxy.applyAdded
        [("x", Proxy.EpState.Active), ("y", Proxy.EpState.Removed)] "x")
        "x") "x" = some Proxy.EpState.Active) ∧
    (Proxy.lookupEp
        [("x", Proxy.EpState.Active), ("y", Proxy.EpState.Removed)] "x" =
        some Proxy.EpState.Removed →
      Proxy.applyRemoved
        [("x", Proxy.EpState.Active), ("y", Proxy.EpState.Removed)] "x" =
        [("x", Proxy.EpState.Active), ("y", Proxy.EpState.Removed)])) :=
  ⟨by decide,
    C5_apply_topology_idempotent
      [("x", Proxy.EpState.Active), ("y", Proxy.EpState.Removed)] "x"
      (by decide)⟩

namespace Proxy

/-- Modelled from the spec: pool construction reads the configured
bounds once and fails fast with InvalidConfiguration when
maxAlive = 0; otherwise it creates the startup pool. -/
def newPool (cfg : PoolConfig) (eps0 : List (String × EpState)) :
    Except PoolError PoolState :=
  if cfg.maxAlive = 0 then
    .error PoolError.InvalidConfiguration
  else
    .ok (initPool eps0)

end Proxy

/-- C7: constructing a pool with maxAlive = 0 fails fast with
InvalidConfiguration; no pool value is ever produced for such a
configuration, so maxAlive = 0 is not treated as unlimited. -/
theorem C7_zero_maxalive_rejected (cfg : Proxy.PoolConfig)
    (eps0 : List (String × Proxy.EpState)) (h : cfg.maxAlive = 0) :
    Proxy.newPool cfg eps0 =
      Except.error Proxy.PoolError.InvalidConfiguration := by
  unfold Proxy.newPool
  rw [if_pos h]

/-- C7 witness: the all-zero bounds configuration is rejected. -/
theorem C7_zero_maxalive_rejected_witness :
    (⟨1, 0, 4⟩ : Proxy.PoolConfig).maxAlive = 0 ∧
    Proxy.newPool ⟨1, 0, 4⟩ [("a", Proxy.EpState.Active)] =
      Except.error Proxy.PoolError.InvalidConfiguration :=
  ⟨rfl, C7_zero_maxalive_rejected ⟨1, 0, 4⟩
    [("a", Proxy.EpState.Active)] rfl⟩
